import Mathlib

/-!
Verification development for the clock and timer core of the repository
(file src/nautilus_trader/common/clock.pyx).

Shallow embedding conventions:
- UTC instants (Python datetime) and intervals (timedelta) are modelled as
  Int; comparisons between them translate directly.
- Python dicts keyed by Label are modelled as association lists
  (List (String times value)) preserving insertion order; dict.pop is
  removal of the (unique) entry with the key, dict assignment under a
  fresh key is an append.
- Handlers are modelled as opaque Nat identifiers; a handler argument of
  None is Option.none.  Every modelled handler is callable, so the
  Condition.type(handler, Callable) check fails exactly when the resolved
  handler is missing.
- TimeEvent carries a fresh GUID in the source, so the Python dict of
  events keyed by TimeEvent holds every generated event; it is modelled
  as a list of (event, handler) pairs.  The GUID itself is dropped.
- Raising ConditionFailed is modelled with Except String; every check of
  the source precedes every mutation, which the Except model mirrors.
- The while loop of TestTimer.advance is modelled with explicit fuel
  (advanceAux); TestTimer.advance supplies fuel that is proved sufficient
  whenever the interval is positive (see the termination theorem), which
  is the domain in which the spec defines the behavior.
-/

/-- Model of TimeEvent: the label of the emitting timer and the UTC
timestamp at which it fired.  The GUID is informational only and dropped. -/
structure TimeEvent where
  label : String
  timestamp : Int
deriving DecidableEq

/-- Model of TestTimer (fields of Timer plus the expired latch). -/
structure TestTimer where
  label : String
  interval : Int
  start_time : Int
  next_time : Int
  stop_time : Option Int
  expired : Bool
deriving DecidableEq

/-- Constructor of TestTimer: next_time is start_time + interval, the
expired latch starts false. -/
def mkTestTimer (label : String) (interval : Int) (start_time : Int)
    (stop_time : Option Int) : TestTimer :=
  { label := label, interval := interval, start_time := start_time,
    next_time := start_time + interval, stop_time := stop_time, expired := false }

/-- Timer.iterate_next: advance next_time by interval. -/
def TestTimer.iterate_next (t : TestTimer) : TestTimer :=
  { t with next_time := t.next_time + t.interval }

/-- The stop-time check of TestTimer.advance: latch expired once the
updated next_time exceeds a present stop_time (a None stop_time is falsy). -/
def TestTimer.checkStop (t : TestTimer) : TestTimer :=
  match t.stop_time with
  | none => t
  | some s => if s < t.next_time then { t with expired := true } else t

/-- The while loop of TestTimer.advance with explicit fuel.  One unit of
fuel allows one loop iteration; exhausted fuel ends the loop early. -/
def TestTimer.advanceAux : Nat → TestTimer → Int → List TimeEvent × TestTimer
  | 0, t, _ => ([], t)
  | Nat.succ n, t, to_time =>
    if t.expired = false ∧ t.next_time ≤ to_time then
      let t2 := (t.iterate_next).checkStop
      let r := TestTimer.advanceAux n t2 to_time
      ({ label := t.label, timestamp := t.next_time } :: r.1, r.2)
    else ([], t)

/-- TestTimer.advance: run the loop with fuel that suffices whenever the
interval is positive.  Returns the emitted events and the updated timer. -/
def TestTimer.advance (t : TestTimer) (to_time : Int) : List TimeEvent × TestTimer :=
  TestTimer.advanceAux ((to_time - t.next_time).toNat + 1) t to_time

/-- TestTimer.cancel: latch the expired flag. -/
def TestTimer.cancel (t : TestTimer) : TestTimer :=
  { t with expired := true }

/-- Lookup in an association list (Python dict access / membership). -/
def lookupKey {α : Type} : List (String × α) → String → Option α
  | [], _ => none
  | (k, v) :: rest, key => if k = key then some v else lookupKey rest key

/-- Remove the first entry with the given key (Python dict.pop). -/
def eraseKey {α : Type} : List (String × α) → String → List (String × α)
  | [], _ => []
  | (k, v) :: rest, key => if k = key then rest else (k, v) :: eraseKey rest key

/-- Replace the value of the first entry with the given key, modelling the
in-place mutation of the timer object stored in the dict. -/
def updateKey {α : Type} : List (String × α) → String → α → List (String × α)
  | [], _, _ => []
  | (k, v) :: rest, key, nv =>
    if k = key then (k, nv) :: rest else (k, v) :: updateKey rest key nv

/-- Model of TestClock state: the fields of Clock that the claims concern
plus the test-clock time.  The logger fields are omitted (logging has no
effect on the modelled state). -/
structure TestClock where
  _time : Int
  _timers : List (String × TestTimer)
  _handlers : List (String × Nat)
  _default_handler : Option Nat
  next_event_time : Option Int
  has_timers : Bool
deriving DecidableEq

/-- TestClock construction with an initial time. -/
def TestClock.init (initial_time : Int) : TestClock :=
  { _time := initial_time, _timers := [], _handlers := [],
    _default_handler := none, next_event_time := none, has_timers := false }

/-- TestClock.time_now returns the internal time. -/
def TestClock.time_now (c : TestClock) : Int := c._time

/-- TestClock.set_time overwrites the internal time. -/
def TestClock.set_time (c : TestClock) (to_time : Int) : TestClock :=
  { c with _time := to_time }

/-- Clock.get_timer_labels: snapshot of the timer keys. -/
def TestClock.get_timer_labels (c : TestClock) : List String :=
  c._timers.map Prod.fst

/-- The minimum next_time over the registered timers, as computed by
sorted(timer.next_time for timer in self._timers.values())[0]. -/
def minNextTime : List (String × TestTimer) → Int
  | [] => 0
  | p :: rest => rest.foldl (fun acc q => min acc q.2.next_time) p.2.next_time

/-- Clock._update_timing: recompute has_timers and next_event_time from
the timer registry. -/
def TestClock._update_timing (c : TestClock) : TestClock :=
  if c._timers.isEmpty then
    { c with has_timers := false, next_event_time := none }
  else
    { c with has_timers := true, next_event_time := some (minNextTime c._timers) }

/-- Clock._add_timer: store the timer and handler under the timer label,
then refresh the timing cache. -/
def TestClock._add_timer (c : TestClock) (t : TestTimer) (h : Nat) : TestClock :=
  TestClock._update_timing
    { c with _timers := c._timers ++ [(t.label, t)],
             _handlers := c._handlers ++ [(t.label, h)] }

/-- Clock._remove_timer: pop the label from both registries, then refresh
the timing cache. -/
def TestClock._remove_timer (c : TestClock) (label : String) : TestClock :=
  TestClock._update_timing
    { c with _timers := eraseKey c._timers label,
             _handlers := eraseKey c._handlers label }

/-- Resolution of an optional handler argument against the default
handler, as done at the top of both setters. -/
def TestClock.resolveHandler (c : TestClock) (handler : Option Nat) : Option Nat :=
  match handler with
  | none => c._default_handler
  | some h => some h

/-- Clock.set_time_alert specialised to TestClock (whose _get_timer builds
a TestTimer with interval alert_time - now, start now, stop alert_time).
The checks run in source order; mutation happens only after all checks. -/
def TestClock.set_time_alert (c : TestClock) (label : String) (alert_time : Int)
    (handler : Option Nat) : Except String TestClock :=
  let h := c.resolveHandler handler
  if (lookupKey c._timers label).isSome then Except.error "label already in timers"
  else if (lookupKey c._handlers label).isSome then Except.error "label already in handlers"
  else
    match h with
    | none => Except.error "handler not of type Callable"
    | some hh =>
      if c._time ≤ alert_time then
        Except.ok (c._add_timer
          (mkTestTimer label (alert_time - c._time) c._time (some alert_time)) hh)
      else Except.error "alert_time not >= time_now"

/-- Clock.set_timer specialised to TestClock.  A missing start_time
defaults to now together with the event_time >= time_now check of the
source; stop_time checks follow; mutation happens after all checks. -/
def TestClock.set_timer (c : TestClock) (label : String) (interval : Int)
    (start_time stop_time : Option Int) (handler : Option Nat) : Except String TestClock :=
  let h := c.resolveHandler handler
  let finish := fun (st : Int) (hh : Nat) =>
    match stop_time with
    | none => Except.ok (c._add_timer (mkTestTimer label interval st stop_time) hh)
    | some sp =>
      if st < sp then
        if st + interval ≤ sp then
          Except.ok (c._add_timer (mkTestTimer label interval st stop_time) hh)
        else Except.error "start_time + interval not <= stop_time"
      else Except.error "start_time not < stop_time"
  if (lookupKey c._timers label).isSome then Except.error "label already in timers"
  else if (lookupKey c._handlers label).isSome then Except.error "label already in handlers"
  else if interval ≤ 0 then Except.error "interval not positive"
  else
    match h with
    | none => Except.error "handler not of type Callable"
    | some hh =>
      match start_time with
      | none =>
        if c._time + interval < c._time then Except.error "event_time not >= time_now"
        else finish c._time hh
      | some st => finish st hh

/-- Clock.cancel_timer: pop the label from both registries (missing label
only logs a warning), cancel the popped timer, refresh the timing cache. -/
def TestClock.cancel_timer (c : TestClock) (label : String) : TestClock :=
  TestClock._update_timing
    { c with _timers := eraseKey c._timers label,
             _handlers := eraseKey c._handlers label }

/-- Clock.cancel_all_timers: cancel each label of a snapshot of the keys. -/
def TestClock.cancel_all_timers (c : TestClock) : TestClock :=
  (c.get_timer_labels).foldl TestClock.cancel_timer c

/-- Modelled from the spec: the TimeEvent comparison used by the final
sorted() of advance_time lives in the model.events module, which is not
under src/; per the spec events are ordered by timestamp ascending with
ties broken by label for determinism. -/
def evLE (p q : TimeEvent × Option Nat) : Prop :=
  p.1.timestamp < q.1.timestamp ∨
    (p.1.timestamp = q.1.timestamp ∧ p.1.label ≤ q.1.label)

instance (p q : TimeEvent × Option Nat) : Decidable (evLE p q) := by
  unfold evLE; infer_instance

/-- Insertion step of the sort applied to the harvested events. -/
def insertEv (p : TimeEvent × Option Nat) :
    List (TimeEvent × Option Nat) → List (TimeEvent × Option Nat)
  | [] => [p]
  | q :: rest => if evLE p q then p :: q :: rest else q :: insertEv p rest

/-- The sorted() applied to the events dict of advance_time. -/
def sortEvents (l : List (TimeEvent × Option Nat)) : List (TimeEvent × Option Nat) :=
  l.foldr insertEv []

/-- The timer loop of TestClock.advance_time over a snapshot of the timer
registry: harvest the events of each timer paired with its handler, write
the mutated timer object back, and remove it if it latched expired. -/
def TestClock.advanceTimers (to_time : Int) :
    TestClock → List (String × TestTimer) → TestClock × List (TimeEvent × Option Nat)
  | c, [] => (c, [])
  | c, (k, t) :: rest =>
    let r := t.advance to_time
    let evs := r.1.map (fun e => (e, lookupKey c._handlers r.2.label))
    let c1 := { c with _timers := updateKey c._timers k r.2 }
    let c2 := if r.2.expired then c1._remove_timer r.2.label else c1
    let rr := TestClock.advanceTimers to_time c2 rest
    (rr.1, evs ++ rr.2)

/-- TestClock.advance_time: early return when no timers or the target is
before the next event time; otherwise iterate a snapshot of the timers,
refresh the timing cache, set the time, and return the sorted events. -/
def TestClock.advance_time (c : TestClock) (to_time : Int) :
    List (TimeEvent × Option Nat) × TestClock :=
  if c.has_timers = false then ([], c)
  else if (match c.next_event_time with
           | some net => decide (to_time < net)
           | none => false) = true then ([], c)
  else
    let r := TestClock.advanceTimers to_time c c._timers
    (sortEvents r.2, { r.1._update_timing with _time := to_time })

/-- The public operations of the clock, for stating temporal claims over
operation sequences. -/
inductive ClockOp where
  | setAlert (label : String) (alert_time : Int) (handler : Option Nat)
  | setRepeating (label : String) (interval : Int)
      (start_time stop_time : Option Int) (handler : Option Nat)
  | cancelOne (label : String)
  | cancelAll
  | setT (to_time : Int)
  | advanceT (to_time : Int)

/-- Apply one operation: setters that raise leave the state unchanged;
advance_time also yields events. -/
def applyOp (c : TestClock) : ClockOp → TestClock × List (TimeEvent × Option Nat)
  | ClockOp.setAlert l a h =>
    match c.set_time_alert l a h with
    | Except.ok c2 => (c2, [])
    | Except.error _ => (c, [])
  | ClockOp.setRepeating l i st sp h =>
    match c.set_timer l i st sp h with
    | Except.ok c2 => (c2, [])
    | Except.error _ => (c, [])
  | ClockOp.cancelOne l => (c.cancel_timer l, [])
  | ClockOp.cancelAll => (c.cancel_all_timers, [])
  | ClockOp.setT t => (c.set_time t, [])
  | ClockOp.advanceT t =>
    let r := c.advance_time t
    (r.2, r.1)

/-- All events delivered over a sequence of operations. -/
def runEvents : TestClock → List ClockOp → List (TimeEvent × Option Nat)
  | _, [] => []
  | c, op :: rest =>
    let r := applyOp c op
    r.2 ++ runEvents r.1 rest

/-- Whether an operation registers the given label. -/
def ClockOp.registersLabel : ClockOp → String → Prop
  | ClockOp.setAlert l _ _, lbl => l = lbl
  | ClockOp.setRepeating l _ _ _ _, lbl => l = lbl
  | _, _ => False

/-- Key sets of the two registries coincide (invariant 5 of the spec). -/
def keysEq (c : TestClock) : Prop :=
  c._timers.map Prod.fst = c._handlers.map Prod.fst

/-- Every registry entry stores a timer whose label is its key. -/
def labelWf (c : TestClock) : Prop :=
  ∀ p ∈ c._timers, p.2.label = p.1

/-- The timing cache is correct: has_timers reflects registry emptiness,
and next_event_time is the minimum next_time of the registered timers. -/
def timingOk (c : TestClock) : Prop :=
  (c.has_timers = true ↔ c._timers ≠ []) ∧
  (c._timers = [] → c.next_event_time = none) ∧
  (c._timers ≠ [] →
    c.next_event_time = some (minNextTime c._timers) ∧
    (∀ p ∈ c._timers, minNextTime c._timers ≤ p.2.next_time) ∧
    (∃ p ∈ c._timers, p.2.next_time = minNextTime c._timers))

/-- True of an Except result exactly when it is an error. -/
def exceptFailed {α : Type} (r : Except String α) : Bool :=
  match r with
  | Except.error _ => true
  | Except.ok _ => false

/-! ### Lemmas about the TestTimer loop -/

theorem TestTimer.checkStop_fields (t : TestTimer) :
    t.checkStop.label = t.label ∧ t.checkStop.interval = t.interval ∧
    t.checkStop.start_time = t.start_time ∧ t.checkStop.stop_time = t.stop_time ∧
    t.checkStop.next_time = t.next_time := by
  obtain ⟨lb, iv, st, nx, sp, ex⟩ := t
  cases sp with
  | none => exact ⟨rfl, rfl, rfl, rfl, rfl⟩
  | some s =>
    simp only [TestTimer.checkStop]
    split <;> exact ⟨rfl, rfl, rfl, rfl, rfl⟩

theorem TestTimer.step_next (t : TestTimer) :
    ((t.iterate_next).checkStop).next_time = t.next_time + t.interval :=
  (TestTimer.checkStop_fields t.iterate_next).2.2.2.2

theorem TestTimer.step_stop (t : TestTimer) :
    ((t.iterate_next).checkStop).stop_time = t.stop_time :=
  (TestTimer.checkStop_fields t.iterate_next).2.2.2.1

theorem TestTimer.step_interval (t : TestTimer) :
    ((t.iterate_next).checkStop).interval = t.interval :=
  (TestTimer.checkStop_fields t.iterate_next).2.1

theorem TestTimer.step_label (t : TestTimer) :
    ((t.iterate_next).checkStop).label = t.label :=
  (TestTimer.checkStop_fields t.iterate_next).1

theorem TestTimer.step_expired (t : TestTimer) (h : t.expired = false) :
    (((t.iterate_next).checkStop).expired = true ↔
      ∃ s, t.stop_time = some s ∧ s < t.next_time + t.interval) := by
  obtain ⟨lb, iv, st, nx, sp, ex⟩ := t
  cases h
  cases sp with
  | none =>
    constructor
    · intro hc; exact absurd hc (by simp [TestTimer.checkStop, TestTimer.iterate_next])
    · rintro ⟨s, hss, _⟩; cases hss
  | some s =>
    simp only [TestTimer.iterate_next, TestTimer.checkStop]
    constructor
    · intro hc
      by_cases hlt : s < nx + iv
      · exact ⟨s, rfl, hlt⟩
      · rw [if_neg hlt] at hc
        cases hc
    · rintro ⟨s2, hss, hlt⟩
      cases hss
      rw [if_pos hlt]

theorem TestTimer.advanceAux_halt (n : Nat) (t : TestTimer) (to_time : Int)
    (h : t.expired = true ∨ to_time < t.next_time) :
    TestTimer.advanceAux n t to_time = ([], t) := by
  cases n with
  | zero => rfl
  | succ n =>
    have hg : ¬ (t.expired = false ∧ t.next_time ≤ to_time) := by
      rcases h with h | h
      · rintro ⟨h1, _⟩; rw [h] at h1; cases h1
      · rintro ⟨_, h2⟩; omega
    simp only [TestTimer.advanceAux]
    rw [if_neg hg]

theorem TestTimer.advanceAux_fields (n : Nat) (t : TestTimer) (to_time : Int) :
    (TestTimer.advanceAux n t to_time).2.label = t.label ∧
    (TestTimer.advanceAux n t to_time).2.interval = t.interval ∧
    (TestTimer.advanceAux n t to_time).2.stop_time = t.stop_time := by
  induction n generalizing t with
  | zero => exact ⟨rfl, rfl, rfl⟩
  | succ n ih =>
    by_cases hg : t.expired = false ∧ t.next_time ≤ to_time
    · simp only [TestTimer.advanceAux]
      rw [if_pos hg]
      dsimp only
      have h2 := ih ((t.iterate_next).checkStop)
      exact ⟨h2.1.trans (TestTimer.step_label t),
             h2.2.1.trans (TestTimer.step_interval t),
             h2.2.2.trans (TestTimer.step_stop t)⟩
    · simp only [TestTimer.advanceAux]
      rw [if_neg hg]
      exact ⟨rfl, rfl, rfl⟩

theorem TestTimer.advanceAux_events (n : Nat) (t : TestTimer) (to_time : Int) :
    ∀ e ∈ (TestTimer.advanceAux n t to_time).1,
      e.label = t.label ∧ e.timestamp ≤ to_time ∧
      (0 ≤ t.interval → t.next_time ≤ e.timestamp) := by
  induction n generalizing t with
  | zero => intro e he; cases he
  | succ n ih =>
    by_cases hg : t.expired = false ∧ t.next_time ≤ to_time
    · simp only [TestTimer.advanceAux]
      rw [if_pos hg]
      dsimp only
      intro e he
      rcases List.mem_cons.mp he with he | he
      · subst he
        exact ⟨rfl, hg.2, fun _ => le_refl _⟩
      · have h3 := ih ((t.iterate_next).checkStop) e he
        refine ⟨h3.1.trans (TestTimer.step_label t), h3.2.1, ?_⟩
        intro hi
        have h4 := h3.2.2 (by rw [TestTimer.step_interval t]; exact hi)
        rw [TestTimer.step_next t] at h4
        omega
    · simp only [TestTimer.advanceAux]
      rw [if_neg hg]
      intro e he
      cases he

theorem TestTimer.advanceAux_stable (n : Nat) (m : Nat) (t : TestTimer) (to_time : Int)
    (hi : 1 ≤ t.interval)
    (hn : (to_time - t.next_time).toNat < n) (hm : (to_time - t.next_time).toNat < m) :
    TestTimer.advanceAux n t to_time = TestTimer.advanceAux m t to_time := by
  induction n generalizing t m with
  | zero => exact absurd hn (Nat.not_lt_zero _)
  | succ n ih =>
    cases m with
    | zero => exact absurd hm (Nat.not_lt_zero _)
    | succ m =>
      by_cases hg : t.expired = false ∧ t.next_time ≤ to_time
      · simp only [TestTimer.advanceAux]
        rw [if_pos hg, if_pos hg]
        by_cases hhalt : ((t.iterate_next).checkStop).expired = true ∨
            to_time < ((t.iterate_next).checkStop).next_time
        · rw [TestTimer.advanceAux_halt n _ to_time hhalt,
              TestTimer.advanceAux_halt m _ to_time hhalt]
        · push_neg at hhalt
          have hi2 : 1 ≤ ((t.iterate_next).checkStop).interval := by
            rw [TestTimer.step_interval]; exact hi
          have hnn : ((t.iterate_next).checkStop).next_time = t.next_time + t.interval :=
            TestTimer.step_next t
          have hb1 : (to_time - ((t.iterate_next).checkStop).next_time).toNat < n := by
            rw [hnn]
            rw [hnn] at hhalt
            have := hg.2
            omega
          have hb2 : (to_time - ((t.iterate_next).checkStop).next_time).toNat < m := by
            rw [hnn]
            rw [hnn] at hhalt
            have := hg.2
            omega
          rw [ih m _ hi2 hb1 hb2]
      · simp only [TestTimer.advanceAux]
        rw [if_neg hg, if_neg hg]

theorem TestTimer.advanceAux_spec (n : Nat) (t : TestTimer) (to_time : Int)
    (hexp : t.expired = false) (hi : 1 ≤ t.interval)
    (hn : (to_time - t.next_time).toNat < n) :
    (TestTimer.advanceAux n t to_time).1 =
      (List.range (TestTimer.advanceAux n t to_time).1.length).map
        (fun k => { label := t.label,
                    timestamp := t.next_time + (k : Int) * t.interval }) ∧
    (TestTimer.advanceAux n t to_time).2.next_time =
      t.next_time + ((TestTimer.advanceAux n t to_time).1.length : Int) * t.interval ∧
    ((TestTimer.advanceAux n t to_time).2.expired = true ∨
      to_time < (TestTimer.advanceAux n t to_time).2.next_time) ∧
    ((TestTimer.advanceAux n t to_time).2.expired = true ↔
      0 < (TestTimer.advanceAux n t to_time).1.length ∧
      ∃ s, t.stop_time = some s ∧
        s < (TestTimer.advanceAux n t to_time).2.next_time) := by
  induction n generalizing t with
  | zero => exact absurd hn (Nat.not_lt_zero _)
  | succ n ih =>
    by_cases hg : t.expired = false ∧ t.next_time ≤ to_time
    case neg =>
      have hlt : to_time < t.next_time := by
        rcases not_and_or.mp hg with h | h
        · exact absurd hexp h
        · omega
      rw [TestTimer.advanceAux_halt (n + 1) t to_time (Or.inr hlt)]
      refine ⟨by simp, by simp, Or.inr hlt, ?_⟩
      simp [hexp]
    case pos =>
      simp only [TestTimer.advanceAux]
      rw [if_pos hg]
      dsimp only
      by_cases hhalt : ((t.iterate_next).checkStop).expired = true ∨
          to_time < ((t.iterate_next).checkStop).next_time
      · rw [TestTimer.advanceAux_halt n _ to_time hhalt]
        dsimp only
        have hiff := TestTimer.step_expired t hexp
        have hnn := TestTimer.step_next t
        refine ⟨?_, ?_, ?_, ?_⟩
        · have h1 : List.range (List.length
              [(⟨t.label, t.next_time⟩ : TimeEvent)]) = [0] := rfl
          rw [h1]
          simp
        · rw [hnn]
          simp
        · rcases hhalt with hh | hh
          · exact Or.inl hh
          · exact Or.inr hh
        · constructor
          · intro hx
            refine ⟨by simp, ?_⟩
            rw [hnn]
            exact hiff.mp hx
          · rintro ⟨-, hs⟩
            rw [hnn] at hs
            exact hiff.mpr hs
      · push_neg at hhalt
        obtain ⟨hte, hle2⟩ := hhalt
        replace hte : ((t.iterate_next).checkStop).expired = false := by
          simpa using hte
        have hi2 : 1 ≤ ((t.iterate_next).checkStop).interval := by
          rw [TestTimer.step_interval]; exact hi
        have hnn := TestTimer.step_next t
        have hn2 : (to_time - ((t.iterate_next).checkStop).next_time).toNat < n := by
          rw [hnn]
          rw [hnn] at hle2
          have := hg.2
          omega
        obtain ⟨e1, e2, e3, e4⟩ := ih ((t.iterate_next).checkStop) hte hi2 hn2
        refine ⟨?_, ?_, ?_, ?_⟩
        · rw [List.length_cons, List.range_succ_eq_map, List.map_cons, List.map_map]
          congr 1
          · simp
          · refine e1.trans ?_
            apply List.map_congr_left
            intro k hk
            simp only [Function.comp, TestTimer.step_label, hnn,
              TestTimer.step_interval, TimeEvent.mk.injEq]
            refine ⟨trivial, ?_⟩
            push_cast
            ring
        · rw [List.length_cons, e2, hnn, TestTimer.step_interval]
          push_cast
          ring
        · exact e3
        · constructor
          · intro hx
            obtain ⟨hL, s, hs, hlt⟩ := e4.mp hx
            rw [TestTimer.step_stop] at hs
            exact ⟨Nat.succ_pos _, s, hs, hlt⟩
          · rintro ⟨-, s, hs, hlt⟩
            rcases Nat.eq_zero_or_pos
                (TestTimer.advanceAux n ((t.iterate_next).checkStop) to_time).1.length
                with hL | hL
            · exfalso
              rw [e2, hL] at hlt
              simp only [Nat.cast_zero, zero_mul, add_zero] at hlt
              rw [hnn] at hlt
              have hx := (TestTimer.step_expired t hexp).mpr ⟨s, hs, hlt⟩
              rw [hte] at hx
              cases hx
            · refine e4.mpr ⟨hL, s, ?_, hlt⟩
              rw [TestTimer.step_stop]
              exact hs

theorem TestTimer.advance_halt (t : TestTimer) (to_time : Int)
    (h : t.expired = true ∨ to_time < t.next_time) :
    t.advance to_time = ([], t) :=
  TestTimer.advanceAux_halt _ t to_time h

theorem TestTimer.advance_fields (t : TestTimer) (to_time : Int) :
    (t.advance to_time).2.label = t.label ∧
    (t.advance to_time).2.interval = t.interval ∧
    (t.advance to_time).2.stop_time = t.stop_time :=
  TestTimer.advanceAux_fields _ t to_time

theorem TestTimer.advance_events (t : TestTimer) (to_time : Int) :
    ∀ e ∈ (t.advance to_time).1,
      e.label = t.label ∧ e.timestamp ≤ to_time ∧
      (0 ≤ t.interval → t.next_time ≤ e.timestamp) :=
  TestTimer.advanceAux_events _ t to_time

theorem TestTimer.advance_spec (t : TestTimer) (to_time : Int)
    (hexp : t.expired = false) (hi : 1 ≤ t.interval) :
    (t.advance to_time).1 =
      (List.range (t.advance to_time).1.length).map
        (fun k => { label := t.label,
                    timestamp := t.next_time + (k : Int) * t.interval }) ∧
    (t.advance to_time).2.next_time =
      t.next_time + ((t.advance to_time).1.length : Int) * t.interval ∧
    ((t.advance to_time).2.expired = true ∨
      to_time < (t.advance to_time).2.next_time) ∧
    ((t.advance to_time).2.expired = true ↔
      0 < (t.advance to_time).1.length ∧
      ∃ s, t.stop_time = some s ∧ s < (t.advance to_time).2.next_time) :=
  TestTimer.advanceAux_spec _ t to_time hexp hi (Nat.lt_succ_self _)

theorem TestTimer.advance_term (t : TestTimer) (to_time : Int) (hi : 1 ≤ t.interval) :
    (t.advance to_time).2.expired = true ∨
      to_time < (t.advance to_time).2.next_time := by
  cases hexp : t.expired with
  | true =>
    rw [TestTimer.advance_halt t to_time (Or.inl hexp)]
    exact Or.inl hexp
  | false => exact (TestTimer.advance_spec t to_time hexp hi).2.2.1

theorem TestTimer.advance_pairwise (t : TestTimer) (to_time : Int)
    (hexp : t.expired = false) (hi : 1 ≤ t.interval) :
    (t.advance to_time).1.Pairwise (fun a b => a.timestamp < b.timestamp) := by
  rw [(TestTimer.advance_spec t to_time hexp hi).1]
  rw [List.pairwise_map]
  apply (List.pairwise_lt_range _).imp
  intro a b hab
  simp only
  have hab2 : (a : Int) < (b : Int) := by exact_mod_cast hab
  have h2 : (a : Int) * t.interval < (b : Int) * t.interval :=
    mul_lt_mul_of_pos_right hab2 (by omega)
  omega

/-- The properties asserted of TestTimer.advance by claim C1: the emitted
events are exactly the successive next_time values (one per due moment,
each due, strictly ascending), next_time advances by interval per
emission, the loop runs until the target is passed or the expiry latches,
the latch fires exactly when the updated next_time passed a present
stop_time, and an expired timer emits nothing in any later call. -/
def AdvanceEnumerates (t : TestTimer) (to_time : Int) : Prop :=
  (t.advance to_time).1 =
    (List.range (t.advance to_time).1.length).map
      (fun k => { label := t.label,
                  timestamp := t.next_time + (k : Int) * t.interval }) ∧
  (t.advance to_time).1.Pairwise (fun a b => a.timestamp < b.timestamp) ∧
  (∀ e ∈ (t.advance to_time).1,
    t.next_time ≤ e.timestamp ∧ e.timestamp ≤ to_time) ∧
  (t.advance to_time).2.next_time =
    t.next_time + ((t.advance to_time).1.length : Int) * t.interval ∧
  ((t.advance to_time).2.expired = true ∨
    to_time < (t.advance to_time).2.next_time) ∧
  ((t.advance to_time).2.expired = true ↔
    0 < (t.advance to_time).1.length ∧
    ∃ s, t.stop_time = some s ∧ s < (t.advance to_time).2.next_time) ∧
  ((t.advance to_time).2.expired = true →
    ∀ to2, ((t.advance to_time).2.advance to2).1 = [])

/-- C1: for every TestTimer with expired false (and the positive interval
under which the spec defines the loop), advance returns exactly one event
per moment where next_time is at most to_time, in ascending next_time
order, each event timestamped with the next_time current at its emission;
after each emission iterate_next advances next_time by interval, and if a
stop_time is present and the updated next_time exceeds it the timer
latches expired and emits no further events in this or any later call. -/
theorem testTimer_advance_enumerates (t : TestTimer) (to_time : Int)
    (hexp : t.expired = false) (hi : 1 ≤ t.interval) :
    AdvanceEnumerates t to_time := by
  obtain ⟨e1, e2, e3, e4⟩ := TestTimer.advance_spec t to_time hexp hi
  refine ⟨e1, TestTimer.advance_pairwise t to_time hexp hi, ?_, e2, e3, e4, ?_⟩
  · intro e he
    have h := TestTimer.advance_events t to_time e he
    exact ⟨h.2.2 (by omega), h.2.1⟩
  · intro hx to2
    rw [TestTimer.advance_halt _ to2 (Or.inl hx)]

theorem testTimer_advance_enumerates_witness :
    AdvanceEnumerates (mkTestTimer "a" 2 0 (some 6)) 10 :=
  testTimer_advance_enumerates (mkTestTimer "a" 2 0 (some 6)) 10 rfl (by decide)

/-- The zero-interval timer that set_time_alert registers for an alert at
exactly the current time: interval 0, next_time and stop_time at now. -/
def zeroIntervalAlertTimer : TestTimer := mkTestTimer "a" 0 0 (some 0)

/-- C10: for every TestTimer with strictly positive interval the advance
loop terminates for every target: each iteration increases next_time by
the interval, so within the fuel bound the loop guard fails or the expiry
latch is set, making the result independent of any further fuel; strict
positivity is necessary, as witnessed by a zero-interval timer whose loop
emits one event per unit of fuel without ever reaching a halting state. -/
theorem testTimer_advance_terminates :
    (∀ (t : TestTimer) (to_time : Int) (n : Nat), 1 ≤ t.interval →
        (to_time - t.next_time).toNat < n →
        TestTimer.advanceAux n t to_time = t.advance to_time) ∧
    (∀ n : Nat, ((TestTimer.advanceAux n zeroIntervalAlertTimer 1).1).length = n) := by
  constructor
  · intro t to_time n hi hn
    exact TestTimer.advanceAux_stable n _ t to_time hi hn (Nat.lt_succ_self _)
  · intro n
    induction n with
    | zero => rfl
    | succ n ih =>
      have hg : zeroIntervalAlertTimer.expired = false ∧
          zeroIntervalAlertTimer.next_time ≤ 1 := by
        exact ⟨rfl, by decide⟩
      simp only [TestTimer.advanceAux]
      rw [if_pos hg]
      dsimp only
      have hstep : ((zeroIntervalAlertTimer.iterate_next).checkStop) =
          zeroIntervalAlertTimer := by decide
      rw [List.length_cons, hstep, ih]

theorem testTimer_advance_terminates_witness :
    TestTimer.advanceAux 11 (mkTestTimer "b" 2 0 none) 10 =
      (mkTestTimer "b" 2 0 none).advance 10 :=
  testTimer_advance_terminates.1 (mkTestTimer "b" 2 0 none) 10 11 (by decide) (by decide)

/-! ### Lemmas about the event sort and the advance_time loop -/

theorem evLE_total (p q : TimeEvent × Option Nat) : evLE p q ∨ evLE q p := by
  unfold evLE
  rcases lt_trichotomy p.1.timestamp q.1.timestamp with h | h | h
  · exact Or.inl (Or.inl h)
  · rcases le_total p.1.label q.1.label with h2 | h2
    · exact Or.inl (Or.inr ⟨h, h2⟩)
    · exact Or.inr (Or.inr ⟨h.symm, h2⟩)
  · exact Or.inr (Or.inl h)

theorem evLE_trans {p q r : TimeEvent × Option Nat}
    (h1 : evLE p q) (h2 : evLE q r) : evLE p r := by
  unfold evLE at h1 h2 ⊢
  rcases h1 with h1 | ⟨h1a, h1b⟩
  · rcases h2 with h2 | ⟨h2a, h2b⟩
    · exact Or.inl (h1.trans h2)
    · exact Or.inl (h2a ▸ h1)
  · rcases h2 with h2 | ⟨h2a, h2b⟩
    · exact Or.inl (h1a ▸ h2)
    · exact Or.inr ⟨h1a.trans h2a, h1b.trans h2b⟩

theorem mem_insertEv (p x : TimeEvent × Option Nat)
    (l : List (TimeEvent × Option Nat)) :
    x ∈ insertEv p l ↔ x = p ∨ x ∈ l := by
  induction l with
  | nil => simp [insertEv]
  | cons q rest ih =>
    simp only [insertEv]
    split
    · simp only [List.mem_cons]
    · simp only [List.mem_cons, ih]
      tauto

theorem pairwise_insertEv (p : TimeEvent × Option Nat)
    (l : List (TimeEvent × Option Nat)) (h : l.Pairwise evLE) :
    (insertEv p l).Pairwise evLE := by
  induction l with
  | nil => simp [insertEv]
  | cons q rest ih =>
    rw [List.pairwise_cons] at h
    obtain ⟨hq, hrest⟩ := h
    simp only [insertEv]
    split
    · rename_i hpq
      rw [List.pairwise_cons]
      refine ⟨?_, List.pairwise_cons.mpr ⟨hq, hrest⟩⟩
      intro x hx
      rcases List.mem_cons.mp hx with rfl | hx
      · exact hpq
      · exact evLE_trans hpq (hq x hx)
    · rename_i hpq
      have hqp : evLE q p := (evLE_total p q).resolve_left hpq
      rw [List.pairwise_cons]
      refine ⟨?_, ih hrest⟩
      intro x hx
      rcases (mem_insertEv p x rest).mp hx with rfl | hx
      · exact hqp
      · exact hq x hx

theorem sortEvents_pairwise (l : List (TimeEvent × Option Nat)) :
    (sortEvents l).Pairwise evLE := by
  induction l with
  | nil => simp [sortEvents]
  | cons p rest ih =>
    simp only [sortEvents, List.foldr_cons] at ih ⊢
    exact pairwise_insertEv p _ ih

theorem mem_sortEvents (l : List (TimeEvent × Option Nat))
    (x : TimeEvent × Option Nat) : x ∈ sortEvents l ↔ x ∈ l := by
  induction l with
  | nil => simp [sortEvents]
  | cons p rest ih =>
    simp only [sortEvents, List.foldr_cons] at ih ⊢
    rw [mem_insertEv, ih, List.mem_cons]

theorem TestClock.advanceTimers_events (to_time : Int)
    (l : List (String × TestTimer)) :
    ∀ (c : TestClock) (p : TimeEvent × Option Nat),
      p ∈ (TestClock.advanceTimers to_time c l).2 →
      ∃ q ∈ l, p.1.label = q.2.label ∧ p.1.timestamp ≤ to_time ∧
        (0 ≤ q.2.interval → q.2.next_time ≤ p.1.timestamp) := by
  induction l with
  | nil => intro c p hp; cases hp
  | cons kt rest ih =>
    intro c p hp
    obtain ⟨k, t⟩ := kt
    simp only [TestClock.advanceTimers] at hp
    rcases List.mem_append.mp hp with hp | hp
    · obtain ⟨e, he, hpe⟩ := List.mem_map.mp hp
      have h3 := TestTimer.advance_events t to_time e he
      have hlab := (TestTimer.advance_fields t to_time).1
      subst hpe
      exact ⟨(k, t), List.mem_cons_self _ _, by rw [hlab]; exact h3.1,
             h3.2.1, h3.2.2⟩
    · obtain ⟨q, hq, hrest⟩ := ih _ p hp
      exact ⟨q, List.mem_cons_of_mem _ hq, hrest⟩

theorem TestClock.advance_time_cases (c : TestClock) (to_time : Int) :
    c.advance_time to_time = ([], c) ∨
    (c.advance_time to_time).1 =
      sortEvents (TestClock.advanceTimers to_time c c._timers).2 := by
  unfold TestClock.advance_time
  split
  · exact Or.inl rfl
  · split
    · exact Or.inl rfl
    · exact Or.inr rfl

/-- A clock at time 10 holding a repeating timer registered through
set_timer with an explicitly supplied past start_time 0, interval 1 and
stop_time 20, which the setter accepts because the event_time versus now
check runs only when start_time is defaulted. -/
def pastStartClock : TestClock :=
  match (TestClock.init 10).set_timer "r" 1 (some 0) (some 20) (some 7) with
  | Except.ok c => c
  | Except.error _ => TestClock.init 10

/-- C2 counterexample: on a TestClock at time 10 holding a timer
registered with an explicitly supplied past start_time, advance_time 11
returns an event whose timestamp is at most the previous time 10, so the
claimed strict lower bound previous_time < t fails as stated. -/
theorem advance_time_strict_bound_cex :
    ((TestClock.init 10).set_timer "r" 1 (some 0) (some 20) (some 7)).toOption =
      some pastStartClock ∧
    pastStartClock._time = 10 ∧
    ∃ p ∈ (pastStartClock.advance_time 11).1,
      p.1.timestamp ≤ pastStartClock._time := by decide

/-- C2 (amended): for every TestClock state, advance_time returns events
sorted ascending by timestamp (ties broken by label) and every returned
timestamp is at most to_time; the claimed strict lower bound
previous_time < t additionally holds whenever every registered timer has
a non-negative interval and next_time strictly above the clock time,
which excludes timers registered with an explicitly supplied past
start_time and zero-interval alerts set at exactly the current time. -/
theorem advance_time_sorted_bounded (c : TestClock) (to_time : Int) :
    (c.advance_time to_time).1.Pairwise
      (fun p q => p.1.timestamp ≤ q.1.timestamp) ∧
    (∀ p ∈ (c.advance_time to_time).1, p.1.timestamp ≤ to_time) ∧
    ((∀ q ∈ c._timers, 0 ≤ q.2.interval ∧ c._time < q.2.next_time) →
      ∀ p ∈ (c.advance_time to_time).1, c._time < p.1.timestamp) := by
  rcases TestClock.advance_time_cases c to_time with h | h
  · rw [h]
    exact ⟨List.Pairwise.nil, fun p hp => absurd hp (List.not_mem_nil p),
           fun _ p hp => absurd hp (List.not_mem_nil p)⟩
  · rw [h]
    refine ⟨?_, ?_, ?_⟩
    · apply (sortEvents_pairwise _).imp
      intro a b hab
      rcases hab with hab | ⟨hab, -⟩
      · exact le_of_lt hab
      · exact le_of_eq hab
    · intro p hp
      rw [mem_sortEvents] at hp
      obtain ⟨q, -, -, hle, -⟩ := TestClock.advanceTimers_events to_time c._timers c p hp
      exact hle
    · intro hq p hp
      rw [mem_sortEvents] at hp
      obtain ⟨q, hqmem, -, -, hge⟩ :=
        TestClock.advanceTimers_events to_time c._timers c p hp
      have h2 := hq q hqmem
      have h3 := hge h2.1
      exact lt_of_lt_of_le h2.2 h3

/-- Witness for the amended C2 on a concrete clock: a repeating timer
with future next_time yields events strictly above the previous time. -/
theorem advance_time_sorted_bounded_witness :
    ((pastStartClock.set_time 0).advance_time 9).1.all
      (fun p => decide ((pastStartClock.set_time 0)._time < p.1.timestamp)) = true := by
  rw [List.all_eq_true]
  intro p hp
  exact decide_eq_true
    ((advance_time_sorted_bounded (pastStartClock.set_time 0) 9).2.2 (by decide) p hp)

/-! ### Association list lemmas -/

theorem lookupKey_eq_none {α : Type} (l : List (String × α)) (k : String) :
    lookupKey l k = none ↔ ∀ p ∈ l, p.1 ≠ k := by
  induction l with
  | nil => simp [lookupKey]
  | cons q rest ih =>
    obtain ⟨k2, v⟩ := q
    by_cases he : k2 = k
    · subst he
      constructor
      · intro hc
        simp [lookupKey] at hc
      · intro h
        exact absurd rfl (h (k2, v) (List.mem_cons_self _ _))
    · simp only [lookupKey, if_neg he, ih, List.mem_cons]
      constructor
      · rintro h p (rfl | hp)
        · exact he
        · exact h p hp
      · intro h p hp
        exact h p (Or.inr hp)

theorem lookupKey_append_right {α : Type} (l : List (String × α)) (k : String)
    (v : α) (h : lookupKey l k = none) :
    lookupKey (l ++ [(k, v)]) k = some v := by
  induction l with
  | nil => simp [lookupKey]
  | cons q rest ih =>
    obtain ⟨k2, v2⟩ := q
    by_cases he : k2 = k
    · simp [lookupKey, he] at h
    · simp only [lookupKey, if_neg he] at h
      simp only [List.cons_append, lookupKey, if_neg he]
      exact ih h

theorem eraseKey_sublist {α : Type} (l : List (String × α)) (k : String) :
    (eraseKey l k).Sublist l := by
  induction l with
  | nil => simp [eraseKey]
  | cons q rest ih =>
    obtain ⟨k2, v⟩ := q
    by_cases he : k2 = k
    · simp only [eraseKey, if_pos he]
      exact List.sublist_cons_self _ _
    · simp only [eraseKey, if_neg he]
      exact ih.cons₂ _

theorem mem_eraseKey {α : Type} {p : String × α} (l : List (String × α))
    (k : String) (hp : p ∈ eraseKey l k) : p ∈ l :=
  (eraseKey_sublist l k).subset hp

/-- Removal of the first occurrence of a string, the image of eraseKey on
the key list. -/
def eraseFirstStr : List String → String → List String
  | [], _ => []
  | s :: rest, k => if s = k then rest else s :: eraseFirstStr rest k

theorem map_fst_eraseKey {α : Type} (l : List (String × α)) (k : String) :
    (eraseKey l k).map Prod.fst = eraseFirstStr (l.map Prod.fst) k := by
  induction l with
  | nil => rfl
  | cons q rest ih =>
    obtain ⟨k2, v⟩ := q
    by_cases he : k2 = k
    · simp [eraseKey, eraseFirstStr, he]
    · simp [eraseKey, eraseFirstStr, he, ih]

theorem eraseFirstStr_sublist (l : List String) (k : String) :
    (eraseFirstStr l k).Sublist l := by
  induction l with
  | nil => simp [eraseFirstStr]
  | cons s rest ih =>
    by_cases he : s = k
    · simp only [eraseFirstStr, if_pos he]
      exact List.sublist_cons_self _ _
    · simp only [eraseFirstStr, if_neg he]
      exact ih.cons₂ _

theorem map_fst_updateKey {α : Type} (l : List (String × α)) (k : String) (v : α) :
    (updateKey l k v).map Prod.fst = l.map Prod.fst := by
  induction l with
  | nil => rfl
  | cons q rest ih =>
    obtain ⟨k2, v2⟩ := q
    by_cases he : k2 = k
    · simp [updateKey, he]
    · simp [updateKey, he, ih]

theorem mem_updateKey {α : Type} {p : String × α} (l : List (String × α))
    (k : String) (v : α) (hp : p ∈ updateKey l k v) : p = (k, v) ∨ p ∈ l := by
  induction l with
  | nil => cases hp
  | cons q rest ih =>
    obtain ⟨k2, v2⟩ := q
    by_cases he : k2 = k
    · subst he
      simp only [updateKey, if_pos rfl] at hp
      rcases List.mem_cons.mp hp with rfl | hp
      · exact Or.inl rfl
      · exact Or.inr (List.mem_cons_of_mem _ hp)
    · simp only [updateKey, if_neg he] at hp
      rcases List.mem_cons.mp hp with rfl | hp
      · exact Or.inr (List.mem_cons_self _ _)
      · rcases ih hp with h | h
        · exact Or.inl h
        · exact Or.inr (List.mem_cons_of_mem _ h)

theorem mem_updateKey_of_ne {α : Type} {p : String × α} (l : List (String × α))
    (k : String) (v : α) (hp : p ∈ l) (hne : p.1 ≠ k) : p ∈ updateKey l k v := by
  induction l with
  | nil => cases hp
  | cons q rest ih =>
    obtain ⟨k2, v2⟩ := q
    rcases List.mem_cons.mp hp with rfl | hp
    · have hne2 : ¬ (k2 = k) := hne
      simp only [updateKey, if_neg hne2]
      exact List.mem_cons_self _ _
    · by_cases he : k2 = k
      · simp only [updateKey, if_pos he]
        exact List.mem_cons_of_mem _ hp
      · simp only [updateKey, if_neg he]
        exact List.mem_cons_of_mem _ (ih hp)

theorem mem_eraseKey_of_ne {α : Type} {p : String × α} (l : List (String × α))
    (k : String) (hp : p ∈ l) (hne : p.1 ≠ k) : p ∈ eraseKey l k := by
  induction l with
  | nil => cases hp
  | cons q rest ih =>
    obtain ⟨k2, v2⟩ := q
    by_cases he : k2 = k
    · simp only [eraseKey, if_pos he]
      rcases List.mem_cons.mp hp with rfl | hp
      · exact absurd he hne
      · exact hp
    · simp only [eraseKey, if_neg he]
      rcases List.mem_cons.mp hp with rfl | hp
      · exact List.mem_cons_self _ _
      · exact List.mem_cons_of_mem _ (ih hp)

theorem mem_updateKey_nodup {α : Type} {p : String × α} (l : List (String × α))
    (k : String) (v : α) (hnd : (l.map Prod.fst).Nodup)
    (hp : p ∈ updateKey l k v) : p = (k, v) ∨ (p ∈ l ∧ p.1 ≠ k) := by
  induction l with
  | nil => cases hp
  | cons q rest ih =>
    obtain ⟨k2, v2⟩ := q
    simp only [List.map_cons, List.nodup_cons] at hnd
    by_cases he : k2 = k
    · subst he
      simp only [updateKey, if_pos rfl] at hp
      rcases List.mem_cons.mp hp with rfl | hp
      · exact Or.inl rfl
      · refine Or.inr ⟨List.mem_cons_of_mem _ hp, ?_⟩
        intro hpk
        exact hnd.1 (by rw [← hpk]; exact List.mem_map_of_mem Prod.fst hp)
    · simp only [updateKey, if_neg he] at hp
      rcases List.mem_cons.mp hp with rfl | hp
      · exact Or.inr ⟨List.mem_cons_self _ _, he⟩
      · rcases ih hnd.2 hp with h | ⟨h1, h2⟩
        · exact Or.inl h
        · exact Or.inr ⟨List.mem_cons_of_mem _ h1, h2⟩

theorem mem_eraseKey_nodup {α : Type} {p : String × α} (l : List (String × α))
    (k : String) (hnd : (l.map Prod.fst).Nodup)
    (hp : p ∈ eraseKey l k) : p ∈ l ∧ p.1 ≠ k := by
  induction l with
  | nil => cases hp
  | cons q rest ih =>
    obtain ⟨k2, v2⟩ := q
    simp only [List.map_cons, List.nodup_cons] at hnd
    by_cases he : k2 = k
    · subst he
      simp only [eraseKey, if_pos rfl] at hp
      refine ⟨List.mem_cons_of_mem _ hp, ?_⟩
      intro hpk
      exact hnd.1 (by rw [← hpk]; exact List.mem_map_of_mem Prod.fst hp)
    · simp only [eraseKey, if_neg he] at hp
      rcases List.mem_cons.mp hp with rfl | hp
      · exact ⟨List.mem_cons_self _ _, he⟩
      · obtain ⟨h1, h2⟩ := ih hnd.2 hp
        exact ⟨List.mem_cons_of_mem _ h1, h2⟩

theorem lookupKey_eraseKey_self {α : Type} (l : List (String × α)) (k : String)
    (hnd : (l.map Prod.fst).Nodup) : lookupKey (eraseKey l k) k = none := by
  rw [lookupKey_eq_none]
  intro p hp
  exact (mem_eraseKey_nodup l k hnd hp).2

/-! ### Lemmas about the timing cache -/

theorem foldl_min_le (l : List (String × TestTimer)) (a : Int) :
    (l.foldl (fun acc q => min acc q.2.next_time) a) ≤ a ∧
    ∀ p ∈ l, (l.foldl (fun acc q => min acc q.2.next_time) a) ≤ p.2.next_time := by
  induction l generalizing a with
  | nil => exact ⟨le_refl a, fun p hp => absurd hp (List.not_mem_nil p)⟩
  | cons q rest ih =>
    simp only [List.foldl_cons]
    obtain ⟨h1, h2⟩ := ih (min a q.2.next_time)
    refine ⟨h1.trans (min_le_left _ _), ?_⟩
    intro p hp
    rcases List.mem_cons.mp hp with rfl | hp
    · exact h1.trans (min_le_right _ _)
    · exact h2 p hp

theorem foldl_min_mem (l : List (String × TestTimer)) (a : Int) :
    (l.foldl (fun acc q => min acc q.2.next_time) a) = a ∨
    ∃ p ∈ l, (l.foldl (fun acc q => min acc q.2.next_time) a) = p.2.next_time := by
  induction l generalizing a with
  | nil => exact Or.inl rfl
  | cons q rest ih =>
    simp only [List.foldl_cons]
    rcases ih (min a q.2.next_time) with h | ⟨p, hp, h⟩
    · rcases min_cases a q.2.next_time with ⟨hm, _⟩ | ⟨hm, _⟩
      · exact Or.inl (h.trans hm)
      · exact Or.inr ⟨q, List.mem_cons_self _ _, h.trans hm⟩
    · exact Or.inr ⟨p, List.mem_cons_of_mem _ hp, h⟩

theorem minNextTime_le (l : List (String × TestTimer)) :
    ∀ p ∈ l, minNextTime l ≤ p.2.next_time := by
  cases l with
  | nil => intro p hp; cases hp
  | cons q rest =>
    intro p hp
    simp only [minNextTime]
    rcases List.mem_cons.mp hp with rfl | hp
    · exact (foldl_min_le rest p.2.next_time).1
    · exact (foldl_min_le rest q.2.next_time).2 p hp

theorem minNextTime_mem (l : List (String × TestTimer)) (hne : l ≠ []) :
    ∃ p ∈ l, p.2.next_time = minNextTime l := by
  cases l with
  | nil => exact absurd rfl hne
  | cons q rest =>
    simp only [minNextTime]
    rcases foldl_min_mem rest q.2.next_time with h | ⟨p, hp, h⟩
    · exact ⟨q, List.mem_cons_self _ _, h.symm⟩
    · exact ⟨p, List.mem_cons_of_mem _ hp, h.symm⟩

theorem update_timing_fields (c : TestClock) :
    (c._update_timing)._timers = c._timers ∧
    (c._update_timing)._handlers = c._handlers ∧
    (c._update_timing)._time = c._time ∧
    (c._update_timing)._default_handler = c._default_handler := by
  unfold TestClock._update_timing
  split <;> exact ⟨rfl, rfl, rfl, rfl⟩

theorem timingOk_update_timing (c : TestClock) : timingOk (c._update_timing) := by
  obtain ⟨ct, tl, hl, dh, net, ht⟩ := c
  cases tl with
  | nil =>
    refine ⟨?_, ?_, ?_⟩
    · constructor
      · intro hc
        exact absurd hc (by simp [TestClock._update_timing])
      · intro hc
        exact absurd rfl hc
    · intro _; rfl
    · intro hc
      exact absurd rfl hc
  | cons q rest =>
    refine ⟨?_, ?_, ?_⟩
    · constructor
      · intro _
        simp [TestClock._update_timing]
      · intro _; rfl
    · intro hc
      exact absurd hc (by simp [TestClock._update_timing])
    · intro _
      exact ⟨rfl, minNextTime_le _,
             minNextTime_mem _ (by simp [TestClock._update_timing])⟩

/-! ### Characterisation of the setters -/

theorem set_time_alert_ok (c : TestClock) (label : String) (alert_time : Int)
    (handler : Option Nat) (c2 : TestClock)
    (hok : c.set_time_alert label alert_time handler = Except.ok c2) :
    lookupKey c._timers label = none ∧
    lookupKey c._handlers label = none ∧
    c._time ≤ alert_time ∧
    ∃ hh, c2 = c._add_timer
      (mkTestTimer label (alert_time - c._time) c._time (some alert_time)) hh := by
  simp only [TestClock.set_time_alert] at hok
  split at hok
  · exact Except.noConfusion hok
  · rename_i h1
    split at hok
    · exact Except.noConfusion hok
    · rename_i h2
      split at hok
      · exact Except.noConfusion hok
      · rename_i hh hmatch
        split at hok
        · rename_i h4
          injection hok with h5
          subst h5
          exact ⟨Option.not_isSome_iff_eq_none.mp h1,
                 Option.not_isSome_iff_eq_none.mp h2, h4, hh, rfl⟩
        · exact Except.noConfusion hok

theorem set_time_alert_accepts (c : TestClock) (label : String) (alert_time : Int)
    (handler : Option Nat)
    (h1 : lookupKey c._timers label = none)
    (h2 : lookupKey c._handlers label = none)
    (h3 : (c.resolveHandler handler).isSome = true)
    (h4 : c._time ≤ alert_time) :
    ∃ c2, c.set_time_alert label alert_time handler = Except.ok c2 := by
  obtain ⟨hh, hmatch⟩ := Option.isSome_iff_exists.mp h3
  simp only [TestClock.set_time_alert, h1, h2, hmatch, Option.isSome_none,
    Bool.false_eq_true, if_false]
  rw [if_pos h4]
  exact ⟨_, rfl⟩

theorem set_timer_ok (c : TestClock) (label : String) (interval : Int)
    (start_time stop_time : Option Int) (handler : Option Nat) (c2 : TestClock)
    (hok : c.set_timer label interval start_time stop_time handler = Except.ok c2) :
    lookupKey c._timers label = none ∧
    lookupKey c._handlers label = none ∧
    1 ≤ interval ∧
    ∃ hh st, c2 = c._add_timer (mkTestTimer label interval st stop_time) hh := by
  simp only [TestClock.set_timer] at hok
  split at hok
  · exact Except.noConfusion hok
  · rename_i h1
    split at hok
    · exact Except.noConfusion hok
    · rename_i h2
      split at hok
      · exact Except.noConfusion hok
      · rename_i h3
        have h3i : 1 ≤ interval := by omega
        split at hok
        · exact Except.noConfusion hok
        · rename_i hh hmatch
          refine ⟨Option.not_isSome_iff_eq_none.mp h1,
                  Option.not_isSome_iff_eq_none.mp h2, h3i, ?_⟩
          split at hok
          · -- start_time = none
            split at hok
            · exact Except.noConfusion hok
            · split at hok
              · -- stop_time = none
                injection hok with h5
                exact ⟨hh, c._time, h5.symm⟩
              · -- stop_time = some sp
                split at hok
                · split at hok
                  · injection hok with h5
                    exact ⟨hh, c._time, h5.symm⟩
                  · exact Except.noConfusion hok
                · exact Except.noConfusion hok
          · -- start_time = some st
            rename_i st
            split at hok
            · injection hok with h5
              exact ⟨hh, st, h5.symm⟩
            · split at hok
              · split at hok
                · injection hok with h5
                  exact ⟨hh, st, h5.symm⟩
                · exact Except.noConfusion hok
              · exact Except.noConfusion hok

theorem add_timer_timers (c : TestClock) (t : TestTimer) (h : Nat) :
    (c._add_timer t h)._timers = c._timers ++ [(t.label, t)] :=
  (update_timing_fields _).1

theorem add_timer_handlers (c : TestClock) (t : TestTimer) (h : Nat) :
    (c._add_timer t h)._handlers = c._handlers ++ [(t.label, h)] :=
  (update_timing_fields _).2.1

/-- C7: set_time_alert and set_timer fail fast and atomically: a call
raises exactly when one of the documented preconditions is violated
(duplicate label in either registry, missing resolved handler, alert
time in the past, non-positive interval, violated stop-time constraints);
in the source every Condition check precedes every registry mutation, so
a raising call leaves _timers, _handlers, has_timers and next_event_time
exactly as before, which the Except embedding reflects by returning the
error without any successor state. -/
theorem setters_fail_fast :
    (∀ (c : TestClock) (label : String) (alert_time : Int) (handler : Option Nat),
      exceptFailed (c.set_time_alert label alert_time handler) = true ↔
        ((lookupKey c._timers label).isSome = true ∨
         (lookupKey c._handlers label).isSome = true ∨
         c.resolveHandler handler = none ∨
         alert_time < c._time)) ∧
    (∀ (c : TestClock) (label : String) (interval : Int)
        (start_time stop_time : Option Int) (handler : Option Nat),
      exceptFailed (c.set_timer label interval start_time stop_time handler) = true ↔
        ((lookupKey c._timers label).isSome = true ∨
         (lookupKey c._handlers label).isSome = true ∨
         interval ≤ 0 ∨
         c.resolveHandler handler = none ∨
         (∃ sp, stop_time = some sp ∧
           ¬ (start_time.getD c._time < sp ∧
              start_time.getD c._time + interval ≤ sp)))) := by
  constructor
  · intro c label alert_time handler
    simp only [TestClock.set_time_alert]
    split
    · rename_i h1
      exact iff_of_true rfl (Or.inl h1)
    · rename_i h1
      split
      · rename_i h2
        exact iff_of_true rfl (Or.inr (Or.inl h2))
      · rename_i h2
        split
        · rename_i hmatch
          exact iff_of_true rfl (Or.inr (Or.inr (Or.inl hmatch)))
        · rename_i hh hmatch
          split
          · rename_i h4
            refine iff_of_false (by simp [exceptFailed]) ?_
            rintro (h | h | h | h)
            · exact h1 h
            · exact h2 h
            · rw [hmatch] at h; exact Option.noConfusion h
            · omega
          · rename_i h4
            exact iff_of_true rfl (Or.inr (Or.inr (Or.inr (by omega))))
  · intro c label interval start_time stop_time handler
    simp only [TestClock.set_timer]
    split
    · rename_i h1
      exact iff_of_true rfl (Or.inl h1)
    · rename_i h1
      split
      · rename_i h2
        exact iff_of_true rfl (Or.inr (Or.inl h2))
      · rename_i h2
        split
        · rename_i h3
          exact iff_of_true rfl (Or.inr (Or.inr (Or.inl h3)))
        · rename_i h3
          split
          · rename_i hmatch
            exact iff_of_true rfl (Or.inr (Or.inr (Or.inr (Or.inl hmatch))))
          · rename_i hh hmatch
            split
            · -- start_time substituted by none
              split
              · exact iff_of_true rfl (Or.inr (Or.inr (Or.inl (by omega))))
              · rename_i hgood
                split
                · -- stop_time substituted by none
                  refine iff_of_false (by simp [exceptFailed]) ?_
                  rintro (h | h | h | h | ⟨sp, hsp, -⟩)
                  · exact h1 h
                  · exact h2 h
                  · exact h3 h
                  · rw [hmatch] at h; exact Option.noConfusion h
                  · exact Option.noConfusion hsp
                · rename_i sp
                  split
                  · rename_i hlt
                    split
                    · rename_i hle
                      refine iff_of_false (by simp [exceptFailed]) ?_
                      rintro (h | h | h | h | ⟨sp2, hsp2, hne⟩)
                      · exact h1 h
                      · exact h2 h
                      · exact h3 h
                      · rw [hmatch] at h; exact Option.noConfusion h
                      · injection hsp2 with hsp3
                        subst hsp3
                        simp only [Option.getD_none] at hne
                        exact hne ⟨hlt, hle⟩
                    · rename_i hle
                      refine iff_of_true rfl
                        (Or.inr (Or.inr (Or.inr (Or.inr ⟨sp, rfl, ?_⟩))))
                      simp only [Option.getD_none]
                      rintro ⟨-, hb⟩
                      exact hle hb
                  · rename_i hlt
                    refine iff_of_true rfl
                      (Or.inr (Or.inr (Or.inr (Or.inr ⟨sp, rfl, ?_⟩))))
                    simp only [Option.getD_none]
                    rintro ⟨ha, -⟩
                    exact hlt ha
            · -- start_time substituted by some st
              rename_i st
              split
              · -- stop_time substituted by none
                refine iff_of_false (by simp [exceptFailed]) ?_
                rintro (h | h | h | h | ⟨sp, hsp, -⟩)
                · exact h1 h
                · exact h2 h
                · exact h3 h
                · rw [hmatch] at h; exact Option.noConfusion h
                · exact Option.noConfusion hsp
              · rename_i sp
                split
                · rename_i hlt
                  split
                  · rename_i hle
                    refine iff_of_false (by simp [exceptFailed]) ?_
                    rintro (h | h | h | h | ⟨sp2, hsp2, hne⟩)
                    · exact h1 h
                    · exact h2 h
                    · exact h3 h
                    · rw [hmatch] at h; exact Option.noConfusion h
                    · injection hsp2 with hsp3
                      subst hsp3
                      simp only [Option.getD_some] at hne
                      exact hne ⟨hlt, hle⟩
                  · rename_i hle
                    refine iff_of_true rfl
                      (Or.inr (Or.inr (Or.inr (Or.inr ⟨sp, rfl, ?_⟩))))
                    simp only [Option.getD_some]
                    rintro ⟨-, hb⟩
                    exact hle hb
                · rename_i hlt
                  refine iff_of_true rfl
                    (Or.inr (Or.inr (Or.inr (Or.inr ⟨sp, rfl, ?_⟩))))
                  simp only [Option.getD_some]
                  rintro ⟨ha, -⟩
                  exact hlt ha

/-- The clock obtained by accepting a time alert at exactly the current
time on a fresh clock at time 0. -/
def alertNowClock : TestClock :=
  match (TestClock.init 0).set_time_alert "a" 0 (some 1) with
  | Except.ok c => c
  | Except.error _ => TestClock.init 0

/-- C8 counterexample: a set_time_alert at exactly the clock time
succeeds (the precondition is boundary inclusive) and the timer it
registers has interval alert_time - now = 0, so the claim that every
timer registered by a successful setter has interval > 0 is false. -/
theorem alert_now_zero_interval_cex :
    ((TestClock.init 0).set_time_alert "a" 0 (some 1)).toOption =
      some alertNowClock ∧
    lookupKey alertNowClock._timers "a" = some (mkTestTimer "a" 0 0 (some 0)) ∧
    (mkTestTimer "a" 0 0 (some 0)).interval = 0 := by decide

/-- C8 (amended): zero intervals are rejected upstream only by set_timer,
whose successful calls always register a timer with interval > 0; the
set_time_alert precondition alert_time >= time_now() is boundary
inclusive, and the timer registered for an alert has the non-negative
interval alert_time - now, which is zero exactly when the alert is at the
current time, so registered intervals are in general only >= 0. -/
theorem registered_interval_sign :
    (∀ (c : TestClock) (label : String) (interval : Int)
        (start_time stop_time : Option Int) (handler : Option Nat)
        (c2 : TestClock),
      c.set_timer label interval start_time stop_time handler = Except.ok c2 →
      ∃ t, lookupKey c2._timers label = some t ∧ 1 ≤ t.interval) ∧
    (∀ (c : TestClock) (label : String) (alert_time : Int)
        (handler : Option Nat) (c2 : TestClock),
      c.set_time_alert label alert_time handler = Except.ok c2 →
      ∃ t, lookupKey c2._timers label = some t ∧ 0 ≤ t.interval ∧
        (t.interval = 0 ↔ alert_time = c._time)) ∧
    (∀ (c : TestClock) (label : String) (handler : Option Nat),
      lookupKey c._timers label = none →
      lookupKey c._handlers label = none →
      (c.resolveHandler handler).isSome = true →
      ∃ c2, c.set_time_alert label c._time handler = Except.ok c2) := by
  refine ⟨?_, ?_, ?_⟩
  · intro c label interval start_time stop_time handler c2 hok
    obtain ⟨h1, -, h3, hh, st, hc2⟩ :=
      set_timer_ok c label interval start_time stop_time handler c2 hok
    subst hc2
    rw [add_timer_timers]
    exact ⟨mkTestTimer label interval st stop_time,
           lookupKey_append_right _ _ _ h1, h3⟩
  · intro c label alert_time handler c2 hok
    obtain ⟨h1, -, h4, hh, hc2⟩ :=
      set_time_alert_ok c label alert_time handler c2 hok
    subst hc2
    rw [add_timer_timers]
    refine ⟨mkTestTimer label (alert_time - c._time) c._time (some alert_time),
            lookupKey_append_right _ _ _ h1, ?_, ?_⟩
    · simp only [mkTestTimer]
      omega
    · simp only [mkTestTimer]
      omega
  · intro c label handler h1 h2 h3
    exact set_time_alert_accepts c label c._time handler h1 h2 h3 (le_refl _)

theorem registered_interval_sign_witness :
    ∃ c2, (TestClock.init 5).set_time_alert "x" 5 (some 2) = Except.ok c2 :=
  registered_interval_sign.2.2 (TestClock.init 5) "x" (some 2) rfl rfl rfl

/-! ### Key set and timing cache invariants across the operations -/

theorem keysEq_add_timer (c : TestClock) (t : TestTimer) (h : Nat)
    (hk : keysEq c) : keysEq (c._add_timer t h) := by
  unfold keysEq at hk ⊢
  rw [add_timer_timers, add_timer_handlers, List.map_append, List.map_append, hk]
  rfl

theorem keysEq_cancel_timer (c : TestClock) (label : String)
    (hk : keysEq c) : keysEq (c.cancel_timer label) := by
  unfold keysEq at hk ⊢
  unfold TestClock.cancel_timer
  rw [(update_timing_fields _).1, (update_timing_fields _).2.1]
  dsimp only
  rw [map_fst_eraseKey, map_fst_eraseKey, hk]

theorem keysEq_remove_timer (c : TestClock) (label : String)
    (hk : keysEq c) : keysEq (c._remove_timer label) := by
  unfold keysEq at hk ⊢
  unfold TestClock._remove_timer
  rw [(update_timing_fields _).1, (update_timing_fields _).2.1]
  dsimp only
  rw [map_fst_eraseKey, map_fst_eraseKey, hk]

theorem keysEq_advanceTimers (to_time : Int) (l : List (String × TestTimer)) :
    ∀ c : TestClock, keysEq c →
      keysEq (TestClock.advanceTimers to_time c l).1 := by
  induction l with
  | nil => intro c hk; exact hk
  | cons kt rest ih =>
    intro c hk
    obtain ⟨k, t⟩ := kt
    simp only [TestClock.advanceTimers]
    apply ih
    have hc1 : keysEq { c with _timers := updateKey c._timers k (t.advance to_time).2 } := by
      unfold keysEq at hk ⊢
      dsimp only
      rw [map_fst_updateKey]
      exact hk
    split
    · exact keysEq_remove_timer _ _ hc1
    · exact hc1

theorem keysEq_foldl_cancel (ls : List String) :
    ∀ c : TestClock, keysEq c → keysEq (ls.foldl TestClock.cancel_timer c) := by
  induction ls with
  | nil => intro c hk; exact hk
  | cons s rest ih =>
    intro c hk
    simp only [List.foldl_cons]
    exact ih _ (keysEq_cancel_timer c s hk)

theorem TestClock.advance_time_eq_cases (c : TestClock) (to_time : Int) :
    c.advance_time to_time = ([], c) ∨
    c.advance_time to_time =
      (sortEvents (TestClock.advanceTimers to_time c c._timers).2,
       { (TestClock.advanceTimers to_time c c._timers).1._update_timing with
         _time := to_time }) := by
  unfold TestClock.advance_time
  split
  · exact Or.inl rfl
  · split
    · exact Or.inl rfl
    · exact Or.inr rfl

/-- C5: the key sets of _timers and _handlers coincide after every public
operation: both setters add the label to both registries, cancel_timer and
cancel_all_timers pop it from both, and advance_time only rewrites timer
values in place and removes expired labels from both registries. -/
theorem clock_key_sets_equal :
    (∀ (c : TestClock) (label : String) (alert_time : Int)
        (handler : Option Nat) (c2 : TestClock),
      keysEq c → c.set_time_alert label alert_time handler = Except.ok c2 →
      keysEq c2) ∧
    (∀ (c : TestClock) (label : String) (interval : Int)
        (start_time stop_time : Option Int) (handler : Option Nat)
        (c2 : TestClock),
      keysEq c → c.set_timer label interval start_time stop_time handler =
        Except.ok c2 → keysEq c2) ∧
    (∀ (c : TestClock) (label : String),
      keysEq c → keysEq (c.cancel_timer label)) ∧
    (∀ c : TestClock, keysEq c → keysEq c.cancel_all_timers) ∧
    (∀ (c : TestClock) (to_time : Int),
      keysEq c → keysEq (c.advance_time to_time).2) := by
  refine ⟨?_, ?_, ?_, ?_, ?_⟩
  · intro c label alert_time handler c2 hk hok
    obtain ⟨-, -, -, hh, hc2⟩ := set_time_alert_ok c label alert_time handler c2 hok
    subst hc2
    exact keysEq_add_timer _ _ _ hk
  · intro c label interval start_time stop_time handler c2 hk hok
    obtain ⟨-, -, -, hh, st, hc2⟩ :=
      set_timer_ok c label interval start_time stop_time handler c2 hok
    subst hc2
    exact keysEq_add_timer _ _ _ hk
  · exact keysEq_cancel_timer
  · intro c hk
    exact keysEq_foldl_cancel _ c hk
  · intro c to_time hk
    rcases TestClock.advance_time_eq_cases c to_time with h | h
    · rw [h]; exact hk
    · rw [h]
      have h2 := keysEq_advanceTimers to_time c._timers c hk
      unfold keysEq at h2 ⊢
      dsimp only
      rw [(update_timing_fields _).1, (update_timing_fields _).2.1]
      exact h2

theorem clock_key_sets_equal_witness :
    keysEq ((pastStartClock.advance_time 11).2) :=
  clock_key_sets_equal.2.2.2.2 pastStartClock 11 rfl

/-- C6: after each mutating operation has_timers holds iff the registry is
non-empty and next_event_time is the minimum next_time of the registered
timers (none when the registry is empty); the two setters, cancel_timer
and the working branch of advance_time end in _update_timing, which
recomputes the cache from scratch, and the remaining no-op paths preserve
a correct cache. -/
theorem clock_timing_cache_correct :
    (∀ (c : TestClock) (label : String) (alert_time : Int)
        (handler : Option Nat) (c2 : TestClock),
      c.set_time_alert label alert_time handler = Except.ok c2 → timingOk c2) ∧
    (∀ (c : TestClock) (label : String) (interval : Int)
        (start_time stop_time : Option Int) (handler : Option Nat)
        (c2 : TestClock),
      c.set_timer label interval start_time stop_time handler = Except.ok c2 →
      timingOk c2) ∧
    (∀ (c : TestClock) (label : String), timingOk (c.cancel_timer label)) ∧
    (∀ c : TestClock, timingOk c → timingOk c.cancel_all_timers) ∧
    (∀ (c : TestClock) (to_time : Int),
      timingOk c → timingOk (c.advance_time to_time).2) := by
  refine ⟨?_, ?_, ?_, ?_, ?_⟩
  · intro c label alert_time handler c2 hok
    obtain ⟨-, -, -, hh, hc2⟩ := set_time_alert_ok c label alert_time handler c2 hok
    subst hc2
    exact timingOk_update_timing _
  · intro c label interval start_time stop_time handler c2 hok
    obtain ⟨-, -, -, hh, st, hc2⟩ :=
      set_timer_ok c label interval start_time stop_time handler c2 hok
    subst hc2
    exact timingOk_update_timing _
  · intro c label
    exact timingOk_update_timing _
  · intro c h
    unfold TestClock.cancel_all_timers
    generalize c.get_timer_labels = ls
    induction ls generalizing c with
    | nil => exact h
    | cons s rest ih =>
      simp only [List.foldl_cons]
      exact ih _ (timingOk_update_timing _)
  · intro c to_time h
    rcases TestClock.advance_time_eq_cases c to_time with he | he
    · rw [he]; exact h
    · rw [he]
      exact timingOk_update_timing _

theorem clock_timing_cache_correct_witness :
    timingOk ((TestClock.init 0).advance_time 5).2 :=
  clock_timing_cache_correct.2.2.2.2 (TestClock.init 0) 5
    (by
      refine ⟨⟨fun h => ?_, fun h => ?_⟩, fun _ => rfl, fun h => ?_⟩
      · cases h
      · exact absurd rfl h
      · exact absurd rfl h)

/-! ### The no-op branch and idempotence of advance_time -/

theorem update_timing_empty (c : TestClock) (h : c._timers = []) :
    (c._update_timing).has_timers = false ∧
    (c._update_timing).next_event_time = none := by
  unfold TestClock._update_timing
  rw [h]
  exact ⟨rfl, rfl⟩

theorem update_timing_nonempty (c : TestClock) (h : c._timers ≠ []) :
    (c._update_timing).has_timers = true ∧
    (c._update_timing).next_event_time = some (minNextTime c._timers) := by
  unfold TestClock._update_timing
  rw [if_neg (by simp [List.isEmpty_iff, h])]
  exact ⟨rfl, rfl⟩

theorem TestClock.advance_time_noop (c : TestClock) (to_time : Int)
    (h : c.has_timers = false ∨
      ∃ net, c.next_event_time = some net ∧ to_time < net) :
    c.advance_time to_time = ([], c) := by
  unfold TestClock.advance_time
  rcases h with h | ⟨net, hnet, hlt⟩
  · rw [if_pos h]
  · by_cases hh : c.has_timers = false
    · rw [if_pos hh]
    · rw [if_neg hh]
      have hcond : (match c.next_event_time with
          | some net => decide (to_time < net)
          | none => false) = true := by
        rw [hnet]
        simp [hlt]
      rw [if_pos hcond]

/-- C3: if has_timers is false or the target is before next_event_time,
advance_time returns the empty mapping and leaves the whole clock state
(including _time) unchanged; otherwise (has_timers with a next_event_time
at or before the target, and positive intervals so the loop terminates)
the call ends with _time set to the target. -/
theorem advance_time_frame :
    (∀ (c : TestClock) (to_time : Int),
      (c.has_timers = false ∨
        ∃ net, c.next_event_time = some net ∧ to_time < net) →
      c.advance_time to_time = ([], c)) ∧
    (∀ (c : TestClock) (to_time : Int),
      (∀ p ∈ c._timers, 1 ≤ p.2.interval) →
      c.has_timers = true →
      (∃ net, c.next_event_time = some net ∧ net ≤ to_time) →
      ((c.advance_time to_time).2)._time = to_time) := by
  constructor
  · exact TestClock.advance_time_noop
  · rintro c to_time hint hh ⟨net, hnet, hge⟩
    unfold TestClock.advance_time
    rw [if_neg (by simp [hh])]
    have hcond : ¬ ((match c.next_event_time with
        | some net => decide (to_time < net)
        | none => false) = true) := by
      rw [hnet]
      simp only [decide_eq_true_eq]
      omega
    rw [if_neg hcond]

theorem advance_time_frame_witness :
    (TestClock.init 3).advance_time 99 = ([], TestClock.init 3) :=
  advance_time_frame.1 (TestClock.init 3) 99 (Or.inl rfl)

theorem advanceTimers_next_gt (to_time : Int) (l : List (String × TestTimer)) :
    ∀ c : TestClock,
      (c._timers.map Prod.fst).Nodup →
      (l.map Prod.fst).Nodup →
      (∀ p ∈ l, p ∈ c._timers) →
      (∀ p ∈ c._timers, p.2.label = p.1) →
      (∀ p ∈ c._timers, 1 ≤ p.2.interval) →
      (∀ p ∈ c._timers, p ∈ l ∨ to_time < p.2.next_time) →
      ∀ p ∈ (TestClock.advanceTimers to_time c l).1._timers,
        to_time < p.2.next_time := by
  induction l with
  | nil =>
    intro c hndC hndL hsub hlab hint hinv p hp
    rcases hinv p hp with h | h
    · cases h
    · exact h
  | cons kt rest ih =>
    intro c hndC hndL hsub hlab hint hinv
    obtain ⟨k, t⟩ := kt
    have hktc : (k, t) ∈ c._timers := hsub (k, t) (List.mem_cons_self _ _)
    have htl : t.label = k := hlab (k, t) hktc
    have hti : 1 ≤ t.interval := hint (k, t) hktc
    have hterm := TestTimer.advance_term t to_time hti
    have hfields := TestTimer.advance_fields t to_time
    rw [List.map_cons, List.nodup_cons] at hndL
    simp only [TestClock.advanceTimers]
    generalize hr : t.advance to_time = r
    rw [hr] at hterm hfields
    obtain ⟨evs, t2⟩ := r
    dsimp only at hterm hfields ⊢
    have hlb2 : t2.label = k := hfields.1.trans htl
    have hint2 : 1 ≤ t2.interval := by rw [hfields.2.1]; exact hti
    have hndu : ((updateKey c._timers k t2).map Prod.fst).Nodup := by
      rw [map_fst_updateKey]; exact hndC
    have hmemu : ∀ p ∈ updateKey c._timers k t2,
        p = (k, t2) ∨ (p ∈ c._timers ∧ p.1 ≠ k) :=
      fun p hp => mem_updateKey_nodup _ _ _ hndC hp
    have hne_rest : ∀ p ∈ rest, p.1 ≠ k := by
      intro p hp hpk
      exact hndL.1 (List.mem_map.mpr ⟨p, hp, hpk⟩)
    have hrest_sub : ∀ p ∈ rest, p ∈ updateKey c._timers k t2 := by
      intro p hp
      exact mem_updateKey_of_ne _ _ _
        (hsub p (List.mem_cons_of_mem _ hp)) (hne_rest p hp)
    by_cases hexp : t2.expired = true
    · rw [if_pos hexp]
      have htimers2 :
          (({ c with _timers := updateKey c._timers k t2 })._remove_timer t2.label)._timers =
          eraseKey (updateKey c._timers k t2) k := by
        rw [TestClock._remove_timer]
        rw [(update_timing_fields _).1]
        dsimp only
        rw [hlb2]
      apply ih
      · rw [htimers2, map_fst_eraseKey]
        exact List.Nodup.sublist (eraseFirstStr_sublist _ _) hndu
      · exact hndL.2
      · rw [htimers2]
        intro p hp
        exact mem_eraseKey_of_ne _ _ (hrest_sub p hp) (hne_rest p hp)
      · rw [htimers2]
        intro p hp
        rcases hmemu p (mem_eraseKey _ _ hp) with rfl | ⟨hpc, -⟩
        · exact hlb2
        · exact hlab p hpc
      · rw [htimers2]
        intro p hp
        rcases hmemu p (mem_eraseKey _ _ hp) with rfl | ⟨hpc, -⟩
        · exact hint2
        · exact hint p hpc
      · rw [htimers2]
        intro p hp
        obtain ⟨hpu, hpne⟩ := mem_eraseKey_nodup _ _ hndu hp
        rcases hmemu p hpu with rfl | ⟨hpc, -⟩
        · exact absurd rfl hpne
        · rcases hinv p hpc with hpl | hnx
          · rcases List.mem_cons.mp hpl with rfl | hpl
            · exact absurd rfl hpne
            · exact Or.inl hpl
          · exact Or.inr hnx
    · rw [if_neg hexp]
      have ht2nx : to_time < t2.next_time := by
        rcases hterm with h | h
        · exact absurd h hexp
        · exact h
      apply ih
      · exact hndu
      · exact hndL.2
      · exact hrest_sub
      · intro p hp
        rcases hmemu p hp with rfl | ⟨hpc, -⟩
        · exact hlb2
        · exact hlab p hpc
      · intro p hp
        rcases hmemu p hp with rfl | ⟨hpc, -⟩
        · exact hint2
        · exact hint p hpc
      · intro p hp
        rcases hmemu p hp with rfl | ⟨hpc, hpne⟩
        · exact Or.inr ht2nx
        · rcases hinv p hpc with hpl | hnx
          · rcases List.mem_cons.mp hpl with rfl | hpl
            · exact absurd rfl hpne
            · exact Or.inl hpl
          · exact Or.inr hnx

/-- C4: advance_time is idempotent in the target: a second call with the
same to_time returns the empty mapping and leaves the clock unchanged
(after the first call every surviving timer has next_time beyond the
target, so the second call takes the early-return branch), and likewise a
second TestTimer.advance with the same target returns no events and
leaves the timer unchanged.  The registry well-formedness assumptions
(distinct keys, key-matching labels, positive intervals) hold for every
clock built by the public setters. -/
theorem advance_time_idempotent :
    (∀ (c : TestClock) (to_time : Int),
      (c._timers.map Prod.fst).Nodup →
      (∀ p ∈ c._timers, p.2.label = p.1) →
      (∀ p ∈ c._timers, 1 ≤ p.2.interval) →
      ((c.advance_time to_time).2).advance_time to_time =
        ([], (c.advance_time to_time).2)) ∧
    (∀ (t : TestTimer) (to_time : Int), 1 ≤ t.interval →
      ((t.advance to_time).2).advance to_time =
        ([], (t.advance to_time).2)) := by
  constructor
  · intro c to_time hnd hlab hint
    rcases TestClock.advance_time_eq_cases c to_time with he | he
    · rw [he]
      exact he
    · rw [he]
      dsimp only
      have hgt := advanceTimers_next_gt to_time c._timers c hnd hnd
        (fun p hp => hp) hlab hint (fun p hp => Or.inl hp)
      apply TestClock.advance_time_noop
      by_cases hemp : (TestClock.advanceTimers to_time c c._timers).1._timers = []
      · exact Or.inl (update_timing_empty _ hemp).1
      · refine Or.inr ⟨minNextTime
          (TestClock.advanceTimers to_time c c._timers).1._timers,
          (update_timing_nonempty _ hemp).2, ?_⟩
        obtain ⟨p, hp, hpe⟩ := minNextTime_mem _ hemp
        rw [← hpe]
        exact hgt p hp
  · intro t to_time hi
    exact TestTimer.advance_halt _ _ (TestTimer.advance_term t to_time hi)

theorem advance_time_idempotent_witness :
    ((pastStartClock.advance_time 11).2).advance_time 11 =
      ([], (pastStartClock.advance_time 11).2) :=
  advance_time_idempotent.1 pastStartClock 11 (by decide) (by decide) (by decide)

/-! ### Temporal claim: a cancelled label never fires again -/

theorem cancel_timer_timers (c : TestClock) (lbl : String) :
    (c.cancel_timer lbl)._timers = eraseKey c._timers lbl := by
  unfold TestClock.cancel_timer
  rw [(update_timing_fields _).1]

theorem remove_timer_timers (c : TestClock) (lbl : String) :
    (c._remove_timer lbl)._timers = eraseKey c._timers lbl := by
  unfold TestClock._remove_timer
  rw [(update_timing_fields _).1]

theorem not_mem_keys_of_lookup_none {α : Type} (l : List (String × α))
    (k : String) (h : lookupKey l k = none) : k ∉ l.map Prod.fst := by
  intro hmem
  obtain ⟨q, hq, hq1⟩ := List.mem_map.mp hmem
  exact (lookupKey_eq_none l k).mp h q hq hq1

theorem add_timer_props (c : TestClock) (t : TestTimer) (hh : Nat)
    (hnd : (c._timers.map Prod.fst).Nodup)
    (hlab : ∀ p ∈ c._timers, p.2.label = p.1)
    (hfree : lookupKey c._timers t.label = none) :
    ((c._add_timer t hh)._timers.map Prod.fst).Nodup ∧
    (∀ p ∈ (c._add_timer t hh)._timers, p.2.label = p.1) := by
  constructor
  · rw [add_timer_timers, List.map_append, List.nodup_append]
    refine ⟨hnd, List.nodup_singleton _, ?_⟩
    show (c._timers.map Prod.fst).Disjoint [t.label]
    rw [List.disjoint_singleton]
    exact not_mem_keys_of_lookup_none _ _ hfree
  · rw [add_timer_timers]
    intro p hp
    rcases List.mem_append.mp hp with hp | hp
    · exact hlab p hp
    · rcases List.mem_singleton.mp hp with rfl
      rfl

theorem advanceTimers_keys_sublist (to_time : Int) (l : List (String × TestTimer)) :
    ∀ c : TestClock,
      ((TestClock.advanceTimers to_time c l).1._timers.map Prod.fst).Sublist
        (c._timers.map Prod.fst) := by
  induction l with
  | nil => intro c; exact List.Sublist.refl _
  | cons kt rest ih =>
    intro c
    obtain ⟨k, t⟩ := kt
    simp only [TestClock.advanceTimers]
    split
    · refine (ih _).trans ?_
      rw [remove_timer_timers, map_fst_eraseKey]
      dsimp only
      rw [map_fst_updateKey]
      exact eraseFirstStr_sublist _ _
    · refine (ih _).trans ?_
      dsimp only
      rw [map_fst_updateKey]

theorem advanceTimers_labelWf (to_time : Int) (l : List (String × TestTimer)) :
    ∀ c : TestClock, (∀ p ∈ l, p.2.label = p.1) →
      (∀ p ∈ c._timers, p.2.label = p.1) →
      ∀ p ∈ (TestClock.advanceTimers to_time c l).1._timers, p.2.label = p.1 := by
  induction l with
  | nil => intro c _ hlab; exact hlab
  | cons kt rest ih =>
    intro c hl hlab
    obtain ⟨k, t⟩ := kt
    simp only [TestClock.advanceTimers]
    apply ih _ (fun p hp => hl p (List.mem_cons_of_mem _ hp))
    have ht : t.label = k := hl (k, t) (List.mem_cons_self _ _)
    have h2 : (t.advance to_time).2.label = k :=
      (TestTimer.advance_fields t to_time).1.trans ht
    have hc1 : ∀ p ∈ updateKey c._timers k (t.advance to_time).2,
        p.2.label = p.1 := by
      intro p hp
      rcases mem_updateKey _ _ _ hp with rfl | hp
      · exact h2
      · exact hlab p hp
    split
    · intro p hp
      rw [remove_timer_timers] at hp
      dsimp only at hp
      exact hc1 p (mem_eraseKey _ _ hp)
    · exact hc1

theorem foldl_cancel_props (lbl : String) (ls : List String) :
    ∀ c : TestClock,
      (c._timers.map Prod.fst).Nodup →
      (∀ p ∈ c._timers, p.2.label = p.1) →
      (∀ p ∈ c._timers, p.1 ≠ lbl) →
      (((ls.foldl TestClock.cancel_timer c)._timers.map Prod.fst).Nodup ∧
       (∀ p ∈ (ls.foldl TestClock.cancel_timer c)._timers, p.2.label = p.1) ∧
       (∀ p ∈ (ls.foldl TestClock.cancel_timer c)._timers, p.1 ≠ lbl)) := by
  induction ls with
  | nil => intro c h1 h2 h3; exact ⟨h1, h2, h3⟩
  | cons s rest ih =>
    intro c h1 h2 h3
    simp only [List.foldl_cons]
    apply ih
    · rw [cancel_timer_timers, map_fst_eraseKey]
      exact List.Nodup.sublist (eraseFirstStr_sublist _ _) h1
    · rw [cancel_timer_timers]
      intro p hp
      exact h2 p (mem_eraseKey _ _ hp)
    · rw [cancel_timer_timers]
      intro p hp
      exact h3 p (mem_eraseKey _ _ hp)

theorem applyOp_step (lbl : String) (op : ClockOp) (c : TestClock)
    (hnd : (c._timers.map Prod.fst).Nodup)
    (hlab : ∀ p ∈ c._timers, p.2.label = p.1)
    (hno : ∀ p ∈ c._timers, p.1 ≠ lbl)
    (hreg : ¬ op.registersLabel lbl) :
    (((applyOp c op).1._timers.map Prod.fst).Nodup ∧
     (∀ p ∈ (applyOp c op).1._timers, p.2.label = p.1) ∧
     (∀ p ∈ (applyOp c op).1._timers, p.1 ≠ lbl)) ∧
    (∀ p ∈ (applyOp c op).2, p.1.label ≠ lbl) := by
  cases op with
  | setAlert l a h =>
    simp only [applyOp]
    cases hok : c.set_time_alert l a h with
    | error e =>
      exact ⟨⟨hnd, hlab, hno⟩, fun p hp => absurd hp (List.not_mem_nil p)⟩
    | ok c2 =>
      obtain ⟨h1, -, -, hh, hc2⟩ := set_time_alert_ok c l a h c2 hok
      subst hc2
      have hprops := add_timer_props c
        (mkTestTimer l (a - c._time) c._time (some a)) hh hnd hlab h1
      refine ⟨⟨hprops.1, hprops.2, ?_⟩, fun p hp => absurd hp (List.not_mem_nil p)⟩
      intro p hp
      rw [add_timer_timers] at hp
      rcases List.mem_append.mp hp with hp | hp
      · exact hno p hp
      · rcases List.mem_singleton.mp hp with rfl
        exact hreg
  | setRepeating l i st sp h =>
    simp only [applyOp]
    cases hok : c.set_timer l i st sp h with
    | error e =>
      exact ⟨⟨hnd, hlab, hno⟩, fun p hp => absurd hp (List.not_mem_nil p)⟩
    | ok c2 =>
      obtain ⟨h1, -, -, hh, st2, hc2⟩ := set_timer_ok c l i st sp h c2 hok
      subst hc2
      have hprops := add_timer_props c (mkTestTimer l i st2 sp) hh hnd hlab h1
      refine ⟨⟨hprops.1, hprops.2, ?_⟩, fun p hp => absurd hp (List.not_mem_nil p)⟩
      intro p hp
      rw [add_timer_timers] at hp
      rcases List.mem_append.mp hp with hp | hp
      · exact hno p hp
      · rcases List.mem_singleton.mp hp with rfl
        exact hreg
  | cancelOne l =>
    simp only [applyOp]
    refine ⟨⟨?_, ?_, ?_⟩, fun p hp => absurd hp (List.not_mem_nil p)⟩
    · rw [cancel_timer_timers, map_fst_eraseKey]
      exact List.Nodup.sublist (eraseFirstStr_sublist _ _) hnd
    · rw [cancel_timer_timers]
      intro p hp
      exact hlab p (mem_eraseKey _ _ hp)
    · rw [cancel_timer_timers]
      intro p hp
      exact hno p (mem_eraseKey _ _ hp)
  | cancelAll =>
    simp only [applyOp]
    unfold TestClock.cancel_all_timers
    exact ⟨foldl_cancel_props lbl _ c hnd hlab hno,
           fun p hp => absurd hp (List.not_mem_nil p)⟩
  | setT t =>
    exact ⟨⟨hnd, hlab, hno⟩, fun p hp => absurd hp (List.not_mem_nil p)⟩
  | advanceT t =>
    simp only [applyOp]
    rcases TestClock.advance_time_eq_cases c t with he | he
    · rw [he]
      exact ⟨⟨hnd, hlab, hno⟩, fun p hp => absurd hp (List.not_mem_nil p)⟩
    · rw [he]
      dsimp only
      have hts : ({ (TestClock.advanceTimers t c c._timers).1._update_timing with _time := t } : TestClock)._timers = (TestClock.advanceTimers t c c._timers).1._timers :=
        (update_timing_fields _).1
      constructor
      · refine ⟨?_, ?_, ?_⟩
        · rw [hts]
          exact List.Nodup.sublist (advanceTimers_keys_sublist t c._timers c) hnd
        · rw [hts]
          exact advanceTimers_labelWf t c._timers c hlab hlab
        · rw [hts]
          intro p hp
          have hk : p.1 ∈ (TestClock.advanceTimers t c c._timers).1._timers.map Prod.fst :=
            List.mem_map_of_mem Prod.fst hp
          have hk2 := (advanceTimers_keys_sublist t c._timers c).subset hk
          obtain ⟨q, hq, hq1⟩ := List.mem_map.mp hk2
          rw [← hq1]
          exact hno q hq
      · intro p hp
        rw [mem_sortEvents] at hp
        obtain ⟨q, hq, hlabq, -, -⟩ :=
          TestClock.advanceTimers_events t c._timers c p hp
        rw [hlabq, hlab q hq]
        exact hno q hq

theorem runEvents_no_label (lbl : String) (ops : List ClockOp) :
    ∀ c : TestClock,
      (c._timers.map Prod.fst).Nodup →
      (∀ p ∈ c._timers, p.2.label = p.1) →
      (∀ p ∈ c._timers, p.1 ≠ lbl) →
      (∀ op ∈ ops, ¬ op.registersLabel lbl) →
      ∀ p ∈ runEvents c ops, p.1.label ≠ lbl := by
  induction ops with
  | nil => intro c _ _ _ _ p hp; cases hp
  | cons op rest ih =>
    intro c hnd hlab hno hreg p hp
    simp only [runEvents] at hp
    obtain ⟨⟨hnd2, hlab2, hno2⟩, hev⟩ :=
      applyOp_step lbl op c hnd hlab hno (hreg op (List.mem_cons_self _ _))
    rcases List.mem_append.mp hp with hp | hp
    · exact hev p hp
    · exact ih _ hnd2 hlab2 hno2
        (fun o ho => hreg o (List.mem_cons_of_mem _ ho)) p hp

/-- C9: once cancel_timer has removed a label and no later public
operation registers that label again, no subsequent advance_time over any
sequence of public operations ever returns an event carrying that label:
the label is out of both registries, every operation preserves its
absence, and every event label produced by advance_time is the label of a
currently registered timer. -/
theorem cancel_timer_no_future_events (c : TestClock) (lbl : String)
    (ops : List ClockOp)
    (hnd : (c._timers.map Prod.fst).Nodup)
    (hlab : ∀ p ∈ c._timers, p.2.label = p.1)
    (hreg : ∀ op ∈ ops, ¬ op.registersLabel lbl) :
    ∀ p ∈ runEvents (c.cancel_timer lbl) ops, p.1.label ≠ lbl := by
  apply runEvents_no_label lbl ops (c.cancel_timer lbl) ?_ ?_ ?_ hreg
  · rw [cancel_timer_timers, map_fst_eraseKey]
    exact List.Nodup.sublist (eraseFirstStr_sublist _ _) hnd
  · rw [cancel_timer_timers]
    intro p hp
    exact hlab p (mem_eraseKey _ _ hp)
  · rw [cancel_timer_timers]
    intro p hp
    exact (mem_eraseKey_nodup _ _ hnd hp).2

theorem cancel_timer_no_future_events_witness :
    (runEvents (alertNowClock.cancel_timer "a") [ClockOp.advanceT 10]).all
      (fun p => decide (p.1.label ≠ "a")) = true := by
  rw [List.all_eq_true]
  intro p hp
  exact decide_eq_true
    (cancel_timer_no_future_events alertNowClock "a" [ClockOp.advanceT 10]
      (by decide) (by decide)
      (by
        intro op hop
        rcases List.mem_singleton.mp hop with rfl
        exact fun hc => hc) p hp)

theorem setters_fail_fast_witness :
    exceptFailed ((TestClock.init 0).set_time_alert "a" (-1) (some 1)) = true :=
  (setters_fail_fast.1 (TestClock.init 0) "a" (-1) (some 1)).mpr
    (Or.inr (Or.inr (Or.inr (by decide))))
